import Mathlib

/-!
Verification development for the welshman publish pipeline
(`packages/app/src/thunk.ts`) and its cooperative scheduler
(`packages/lib/Worker.ts`).

The TypeScript sources are shallowly embedded: records become
association lists or functions, optional fields become `Option`,
promises become explicit result fields, and the fallible signer
capability returns `Except`.
-/

namespace Welshman

/-- Publish status kinds, from `PublishStatus` in `@welshman/net`
(re-exported and destructured at the top of `thunk.ts`). -/
inductive PublishStatus where
  | Pending
  | Success
  | Failure
  | Timeout
  | Aborted
deriving DecidableEq, Repr

/-- `ThunkStatus = {message, status}` from `thunk.ts`. -/
structure ThunkStatus where
  message : String
  status : PublishStatus
deriving DecidableEq, Repr

/-- `ThunkStatusByUrl = Record<string, ThunkStatus>`, embedded as an
association list preserving JS object insertion order. -/
abbrev ThunkStatusByUrl : Type := List (String × ThunkStatus)

/-- Key update on a JS record or `Map` embedded as an insertion-ordered
association list: an existing key keeps its position, a new key is
appended.  This is the behavior of both `{...obj, [k]: v}` and
`Map.set`. -/
def upsert [DecidableEq α] (k : α) (v : β) (m : List (α × β)) : List (α × β) :=
  if m.any (fun p => p.1 = k) then
    m.map (fun p => if p.1 = k then (k, v) else p)
  else
    m ++ [(k, v)]

/-- Key read on such a record (`obj[k]` / `Map.get`). -/
def alookup [DecidableEq α] (m : List (α × β)) (k : α) : Option β :=
  (m.find? (fun p => p.1 = k)).map (fun p => p.2)

/-- Read `m[url]` on a status record. -/
def lookupUrl (m : ThunkStatusByUrl) (url : String) : Option ThunkStatus :=
  alookup m url

/-- `assoc(k, v)` from `@welshman/lib`: spread-update of a record. -/
def assocSet (k : String) (v : ThunkStatus) (m : ThunkStatusByUrl) : ThunkStatusByUrl :=
  upsert k v m

/-- `uniq` from `@welshman/lib`: first-occurrence deduplication. -/
def uniqAux (seen : List String) : List String → List String
  | [] => []
  | x :: xs => if seen.contains x then uniqAux seen xs else x :: uniqAux (x :: seen) xs

def uniqStrings (xs : List String) : List String := uniqAux [] xs

/-- The severity scan order used by `mergeThunks`:
`[Aborted, Failure, Timeout, Pending, Success]` (thunk.ts line 103). -/
def severityList : List PublishStatus :=
  [.Aborted, .Failure, .Timeout, .Pending, .Success]

/-- `urlStatuses.find(s => s?.status === status)`: the first member's
status entry for this url whose kind matches `sev`, skipping members
with no entry for the url. -/
def findBySeverity (urlStatuses : List (Option ThunkStatus)) (sev : PublishStatus) :
    Option ThunkStatus :=
  urlStatuses.findSome? (fun o =>
    match o with
    | some ts => if ts.status = sev then some ts else none
    | none => none)

/-- `[Aborted, Failure, Timeout, Pending, Success].map(...).find(identity)`
from `mergeThunks`: first severity level with a hit wins. -/
def mergeUrlStatus (urlStatuses : List (Option ThunkStatus)) : Option ThunkStatus :=
  severityList.findSome? (findBySeverity urlStatuses)

/-- The derived merged status record of `mergeThunks` (thunk.ts lines
96-114): for each url observed across any member (in first-occurrence
order), the severity-scan representative. -/
def mergeStatuses (statuses : List ThunkStatusByUrl) : ThunkStatusByUrl :=
  (uniqStrings (statuses.flatMap (fun s => s.map Prod.fst))).filterMap
    (fun url =>
      (mergeUrlStatus (statuses.map (fun s => lookupUrl s url))).map (fun ts => (url, ts)))

/-- The spec's wording of the merge, written independently of the code:
scan severity levels in the fixed order; at the first severity level at
which any member has a status for the endpoint, take the status of the
first such member in member order. -/
def specSelect (statuses : List ThunkStatusByUrl) (url : String) : Option ThunkStatus :=
  match severityList.find?
      (fun sev => statuses.any
        (fun s => (lookupUrl s url).any (fun ts => ts.status = sev))) with
  | some sev =>
      statuses.findSome? (fun s =>
        match lookupUrl s url with
        | some ts => if ts.status = sev then some ts else none
        | none => none)
  | none => none

/-! ## Event completion (`prepEvent`, thunk.ts lines 48-62)

The completion stages `stamp`, `own`, `hash` and the stage predicates
live in `@welshman/signer` / `@welshman/util`, repository packages not
present under `src/`; they are modelled from the spec below.  `prepEvent`
itself is translated from the source. -/

/-- An event record moving through the completion stages.  Optional
fields are absent until the corresponding stage has run. -/
structure WEvent where
  kind : Nat
  content : String
  tags : List (List String)
  created_at : Option Nat
  pubkey : Option String
  id : Option String
  sig : Option String
deriving DecidableEq, Repr

/-- Modelled from the spec: an event is *stamped* when it has a creation
timestamp (`isStampedEvent`). -/
def isStampedEvent (e : WEvent) : Bool := e.created_at.isSome

/-- Modelled from the spec: an event is *owned* when it has a publisher
identity (`isOwnedEvent`). -/
def isOwnedEvent (e : WEvent) : Bool := e.pubkey.isSome

/-- Modelled from the spec: an event is *hashed* when it has its
deterministic identity (`isHashedEvent`). -/
def isHashedEvent (e : WEvent) : Bool := e.id.isSome

/-- Modelled from the spec: an event is *signed* when it carries a
cryptographic proof over the hashed form (`isSignedEvent`). -/
def isSignedEvent (e : WEvent) : Bool := e.sig.isSome

/-- Modelled from the spec: `stamp` gives the event a creation
timestamp. -/
def stamp (now : Nat) (e : WEvent) : WEvent := { e with created_at := some now }

/-- Modelled from the spec: `own` attributes the event to a publisher
identity. -/
def own (pk : String) (e : WEvent) : WEvent := { e with pubkey := some pk }

/-- Modelled from the spec: the identity is a deterministic function of
the event's completed fields. -/
def hashFields (e : WEvent) : String :=
  toString e.kind ++ "|" ++ toString (e.created_at.getD 0) ++ "|"
    ++ e.pubkey.getD "" ++ "|" ++ e.content

/-- Modelled from the spec: `hash` assigns the deterministic identity
derived from the completed fields. -/
def hashEvent (e : WEvent) : WEvent := { e with id := some (hashFields e) }

/-- `prepEvent` from thunk.ts lines 48-62: stamp, then own (with the
session pubkey), then hash, each stage skipped when its predicate
already holds. -/
def prepEvent (now : Nat) (pk : String) (e : WEvent) : WEvent :=
  let e1 := if isStampedEvent e then e else stamp now e
  let e2 := if isOwnedEvent e1 then e1 else own pk e1
  if isHashedEvent e2 then e2 else hashEvent e2

/-! ## Thunks, merged thunks and the registry -/

/-- `ThunkRequest` from thunk.ts (the opaque `context` field is
omitted; no claim touches it). -/
structure ThunkRequest where
  event : WEvent
  relays : List String
  delay : Option Nat
  timeout : Option Nat
deriving DecidableEq, Repr

/-- A `Thunk`'s persistent data: the completed event, the request, and
its `AbortController` signal (a boolean flag).  The `result` deferred
and `status` store are modelled as explicit dispatch outputs below. -/
structure Thunk where
  event : WEvent
  request : ThunkRequest
  aborted : Bool
deriving DecidableEq, Repr

/-- `makeThunk` (thunk.ts lines 64-71): completes the event and
allocates a fresh (unsignalled) controller. -/
def makeThunk (now : Nat) (pk : String) (request : ThunkRequest) : Thunk :=
  { event := prepEvent now pk request.event, request := request, aborted := false }

/-- The member list and controller of a `MergedThunk` (thunk.ts lines
73-95).  The derived merged status view is `mergeStatuses` above. -/
structure MergedThunk where
  thunks : List Thunk
  aborted : Bool
deriving DecidableEq, Repr

/-- `mergeThunks` member/controller construction (lines 83-95). -/
def mergeThunksModel (ts : List Thunk) : MergedThunk :=
  { thunks := ts, aborted := false }

/-- The abort listener installed by `mergeThunks` (lines 86-90):
signalling the merged controller aborts every member's controller. -/
def abortMerged (m : MergedThunk) : MergedThunk :=
  { thunks := m.thunks.map (fun t => { t with aborted := true }), aborted := true }

/-- An entry of the `thunks` registry (`writable<Record<string, Thunk |
MergedThunk>>`). -/
inductive ThunkLike where
  | single (t : Thunk)
  | merged (m : MergedThunk)
deriving DecidableEq, Repr

/-- The event id under which a thunk is registered (`thunk.event.id`;
always present after `prepEvent`). -/
def eventId (e : WEvent) : String := e.id.getD ""

/-- `publishThunks` (thunk.ts lines 146-163): make one thunk per
request, merge them, and register the same merged thunk under every
member event id.  Queue pushes and repository writes are modelled
elsewhere (dispatch); the registry is a function map. -/
def publishThunksModel (now : Nat) (pk : String) (requests : List ThunkRequest)
    (reg : String → Option ThunkLike) : MergedThunk × (String → Option ThunkLike) :=
  let newThunks := requests.map (makeThunk now pk)
  let mergedThunk := mergeThunksModel newThunks
  (mergedThunk,
    newThunks.foldl
      (fun r t => fun i => if i = eventId t.event then some (.merged mergedThunk) else r i)
      reg)

/-! ## Dispatch (`thunkQueue.processItem`, thunk.ts lines 171-275)

The asynchronous body is embedded as a total function over an explicit
environment: the optional signer capability (whose invocation may fail,
hence `Except`), the value of the abort signal at the post-delay
checkpoint, and the ordered lifecycle notifications the broadcaster
emits.  The repository signature back-fill (lines 242-247) and the
sealed-envelope substitution (lines 180-182) touch only the shared
event store and are outside this model; no claim depends on them. -/

/-- The lifecycle notifications of `MultiPublish` (`PublishEvent`). -/
inductive PublishEvt where
  | success (id : String) (message : String) (url : String)
  | failure (id : String) (message : String) (url : String)
  | timeout (url : String)
  | abortedEvt (url : String)
  | complete
deriving DecidableEq, Repr

/-- The observable state a dispatch produces: the unit's status record,
its deferred result (`some` once resolved, resolving at most once), and
the calls made to the shared `tracker`. -/
structure PubState where
  status : ThunkStatusByUrl
  resolved : Option ThunkStatusByUrl
  trackerLog : List (String × String)
deriving DecidableEq, Repr

def initPubState : PubState := { status := [], resolved := none, trackerLog := [] }

/-- The five `pub.on(...)` handlers (thunk.ts lines 249-272) applied to
one notification. -/
def applyPublishEvt (s : PubState) : PublishEvt → PubState
  | .success i message url =>
      { s with
        trackerLog := s.trackerLog ++ [(i, url)],
        status := assocSet url { message := message, status := .Success } s.status }
  | .failure _ message url =>
      { s with status := assocSet url { message := message, status := .Failure } s.status }
  | .timeout url =>
      { s with
        status := assocSet url { message := "Publish timed out", status := .Timeout } s.status }
  | .abortedEvt url =>
      { s with
        status := assocSet url { message := "Publish was aborted", status := .Aborted } s.status }
  | .complete =>
      { s with
        resolved := match s.resolved with
          | none => some s.status
          | some r => some r }

/-- The `fail(message)` closure (lines 186-194): build a fresh record
marking every requested relay `Failure` and replace the status store
with it wholesale. -/
def failRecord (relays : List String) (message : String) : ThunkStatusByUrl :=
  relays.foldl (fun m url => assocSet url { message := message, status := .Failure } m) []

/-- The `fromPairs` pending record set at lines 226-231. -/
def pendingRecord (relays : List String) : ThunkStatusByUrl :=
  relays.foldl
    (fun m url =>
      assocSet url { message := "Sending your message...", status := .Pending } m) []

/-- The observable state right after the Pending record is set. -/
def startState (relays : List String) : PubState :=
  { status := pendingRecord relays, resolved := none, trackerLog := [] }

/-- The send phase (lines 216-273): optional delay then abort re-check;
if aborted stop with nothing set; otherwise set every relay Pending,
start the broadcaster and fold its notifications through the handlers. -/
def sendPhase (t : Thunk) (abortedAfterDelay : Bool) (notifs : List PublishEvt) : PubState :=
  if abortedAfterDelay then initPubState
  else notifs.foldl applyPublishEvt (startState t.request.relays)

/-- `thunkQueue.processItem` (lines 173-274).  Returns `Except.ok` of
the resulting observable state; an uncaught exception in the async body
would surface as `Except.error`.  The signer's failure is caught (the
`try`/`catch` at lines 205-209) and routed to `fail`. -/
def dispatchThunk (t : Thunk) (signer : Option (WEvent → Except String WEvent))
    (abortedAfterDelay : Bool) (notifs : List PublishEvt) : Except String PubState :=
  if t.aborted then Except.ok initPubState
  else if isSignedEvent t.event then Except.ok (sendPhase t abortedAfterDelay notifs)
  else
    match signer with
    | none =>
        Except.ok
          { status := failRecord t.request.relays
              ("No signer found for " ++ t.event.pubkey.getD ""),
            resolved := none, trackerLog := [] }
    | some sgn =>
        match sgn t.event with
        | Except.error e =>
            Except.ok
              { status := failRecord t.request.relays e,
                resolved := none, trackerLog := [] }
        | Except.ok _ => Except.ok (sendPhase t abortedAfterDelay notifs)

/-! ## The scheduler (`Worker`, packages/lib/Worker.ts)

Handlers are embedded as identifiers of type `H`; a cycle yields the
ordered log of handler invocations instead of running effects.  The
deferral predicate and key extraction are the pure functions the
constructor options hold. -/

/-- A key of the handlers map: the private `ANY` symbol or a user key. -/
inductive HKey (K : Type) where
  | anyKey
  | key (k : K)
deriving DecidableEq

/-- Worker configuration: `opts.getKey`, `opts.shouldDefer`, and the
current handlers map (a JS `Map`, embedded as an insertion-ordered
association list). -/
structure WorkerCfg (T K H : Type) where
  getKey : Option (T → K)
  shouldDefer : Option (T → Bool)
  handlers : List (HKey K × List H)

/-- `this.handlers.get(k) || []`. -/
def getHandlers [DecidableEq K] (hs : List (HKey K × List H)) (k : HKey K) : List H :=
  (alookup hs k).getD []

/-- `Map.set`: replace in place when the key exists, append otherwise. -/
def setHandlers [DecidableEq K] (hs : List (HKey K × List H)) (k : HKey K) (v : List H) :
    List (HKey K × List H) :=
  upsert k v hs

/-- `addHandler` (Worker.ts lines 56-58): concat the new handler onto
the key's list. -/
def addHandler [DecidableEq K] (hs : List (HKey K × List H)) (k : HKey K) (h : H) :
    List (HKey K × List H) :=
  setHandlers hs k (getHandlers hs k ++ [h])

/-- `this.opts.shouldDefer?.(message)`. -/
def deferPred (cfg : WorkerCfg T K H) (m : T) : Bool :=
  match cfg.shouldDefer with
  | some p => p m
  | none => false

/-- Dispatch of one non-deferred item (Worker.ts lines 27-37): every
global handler in registration order, then — when `getKey` is
configured — the handlers under the item's key in registration order.
Each pair is one awaited invocation, in list order. -/
def handleMessage [DecidableEq K] (cfg : WorkerCfg T K H) (m : T) : List (H × T) :=
  (getHandlers cfg.handlers .anyKey).map (fun h => (h, m)) ++
    (match cfg.getKey with
     | some f => (getHandlers cfg.handlers (.key (f m))).map (fun h => (h, m))
     | none => [])

/-- The outcome of one `#doWork` cycle: the remaining buffer, the items
dispatched to handlers (in order), and the handler invocation log. -/
structure CycleResult (T K H : Type) where
  buffer : List T
  processed : List T
  log : List (H × T)
deriving Repr

/-- The `for (let i = 0; i < 50; i++)` loop of `#doWork` (lines 16-39):
pop the head; a deferred item goes to the tail unhandled, any other item
is dispatched via `handleMessage`. -/
def doWorkAux [DecidableEq K] (cfg : WorkerCfg T K H) :
    Nat → List T → List T → List (H × T) → CycleResult T K H
  | 0, buf, processed, log => ⟨buf, processed, log⟩
  | _ + 1, [], processed, log => ⟨[], processed, log⟩
  | i + 1, m :: rest, processed, log =>
      if deferPred cfg m then
        doWorkAux cfg i (rest ++ [m]) processed log
      else
        doWorkAux cfg i rest (processed ++ [m]) (log ++ handleMessage cfg m)

/-- One full `#doWork` cycle over a buffer: the cap is the literal 50 of
the source. -/
def doWork [DecidableEq K] (cfg : WorkerCfg T K H) (buf : List T) : CycleResult T K H :=
  doWorkAux cfg 50 buf [] []

/-- The scheduling state of a `Worker`: its buffer, whether the
`this.timeout` field holds a (truthy) timer id, and whether a live timer
is actually pending.  `clearTimeout` cancels the timer but leaves the
field set — the distinction the model must keep. -/
structure WorkerState (T : Type) where
  buffer : List T
  timeoutSet : Bool
  timerLive : Bool
deriving DecidableEq, Repr

def initialWorker : WorkerState T := { buffer := [], timeoutSet := false, timerLive := false }

/-- `#enqueueWork` (lines 45-49): schedule a cycle only when the
`timeout` field is unset and the buffer is non-empty. -/
def enqueueWork (s : WorkerState T) : WorkerState T :=
  if !s.timeoutSet && decide (0 < s.buffer.length) then
    { s with timeoutSet := true, timerLive := true }
  else s

/-- `push` (lines 51-54): append, then `#enqueueWork`. -/
def workerPush (s : WorkerState T) (m : T) : WorkerState T :=
  enqueueWork { s with buffer := s.buffer ++ [m] }

/-- `stop` (lines 68-70): `clearTimeout(this.timeout)` — the pending
timer is cancelled but the `timeout` field keeps its stale id. -/
def workerStop (s : WorkerState T) : WorkerState T :=
  { s with timerLive := false }

/-- `clear` (lines 64-66). -/
def workerClear (s : WorkerState T) : WorkerState T :=
  { s with buffer := [] }

/-- The timer firing: `#doWork` runs, resets the `timeout` field, then
re-enqueues if the buffer is still non-empty (lines 41-42). -/
def workerFire [DecidableEq K] (cfg : WorkerCfg T K H) (s : WorkerState T) :
    WorkerState T × List T × List (H × T) :=
  let r := doWork cfg s.buffer
  (enqueueWork { buffer := r.buffer, timeoutSet := false, timerLive := false },
    r.processed, r.log)

/-! ## Shared lemmas and sample inputs -/

/-- The `(id, url)` pair a notification contributes to the tracker, if
any: only `Success` notifications call `tracker.track`. -/
def successPair : PublishEvt → Option (String × String)
  | .success i _ url => some (i, url)
  | _ => none

/-- A sample event that has completed stamping, ownership and hashing
but is unsigned. -/
def sampleEvent : WEvent :=
  { kind := 1, content := "hi", tags := [], created_at := some 5,
    pubkey := some "pk", id := some "id1", sig := none }

/-- A sample request targeting two relays. -/
def sampleRequest : ThunkRequest :=
  { event := sampleEvent, relays := ["wss://a", "wss://b"], delay := none, timeout := none }

/-- The thunk `makeThunk` would produce for `sampleRequest`. -/
def sampleThunk : Thunk :=
  { event := sampleEvent, request := sampleRequest, aborted := false }

/-- A sample request targeting a single relay. -/
def sampleRequestA : ThunkRequest :=
  { event := sampleEvent, relays := ["wss://a"], delay := none, timeout := none }

theorem foldl_trackerLog (notifs : List PublishEvt) :
    ∀ s : PubState,
      (notifs.foldl applyPublishEvt s).trackerLog
        = s.trackerLog ++ notifs.filterMap successPair := by
  induction notifs with
  | nil => intro s; simp
  | cons n ns ih =>
      intro s
      cases n <;> simp [List.foldl_cons, applyPublishEvt, successPair, ih, List.append_assoc]

theorem resolved_preserved (s : PubState) (n : PublishEvt)
    (h : s.resolved.isSome = true) : ((applyPublishEvt s n).resolved).isSome = true := by
  cases n with
  | success i m u => exact h
  | failure i m u => exact h
  | timeout u => exact h
  | abortedEvt u => exact h
  | complete =>
      cases hr : s.resolved with
      | none => rw [hr] at h; cases h
      | some r => simp [applyPublishEvt, hr]

theorem resolved_foldl_preserved (notifs : List PublishEvt) :
    ∀ s : PubState, s.resolved.isSome = true →
      ((notifs.foldl applyPublishEvt s).resolved).isSome = true := by
  induction notifs with
  | nil => intro s h; exact h
  | cons n ns ih => intro s h; exact ih _ (resolved_preserved s n h)

theorem complete_resolves (notifs : List PublishEvt) :
    ∀ s : PubState, PublishEvt.complete ∈ notifs →
      ((notifs.foldl applyPublishEvt s).resolved).isSome = true := by
  induction notifs with
  | nil => intro s h; cases h
  | cons n ns ih =>
      intro s h
      rcases List.mem_cons.mp h with h1 | h2
      · subst h1
        rw [List.foldl_cons]
        apply resolved_foldl_preserved
        cases hr : s.resolved <;> simp [applyPublishEvt, hr]
      · exact ih _ h2

/-! ## Claim theorems -/

/-- C5: `prepEvent` is idempotent — applying the stamp/own/hash
completion to the result of a previous completion yields the same
identity and the same completed fields, each stage being skipped when
already satisfied. -/
theorem prepEvent_idempotent (e : WEvent) (now pk : Nat) (pk1 pk2 : String) :
    prepEvent pk pk2 (prepEvent now pk1 e) = prepEvent now pk1 e := by
  cases h1 : e.created_at <;> cases h2 : e.pubkey <;> cases h3 : e.id <;>
    simp [prepEvent, isStampedEvent, isOwnedEvent, isHashedEvent, stamp, own, hashEvent,
      h1, h2, h3]

/-- C10: along any notification sequence, the shared tracker receives
exactly the `(event id, endpoint url)` pairs of the `Success`
notifications, in order — `Failure`, `Timeout` and `Aborted`
notifications add no tracker record — and a `Success` notification also
sets that endpoint's status to `Success` with the carried message. -/
theorem tracker_records_success_only (notifs : List PublishEvt) (s : PubState)
    (i message url : String) :
    ((notifs.foldl applyPublishEvt s).trackerLog
      = s.trackerLog ++ notifs.filterMap successPair)
    ∧ (applyPublishEvt s (.success i message url)
        = { s with
            trackerLog := s.trackerLog ++ [(i, url)],
            status := assocSet url { message := message, status := .Success } s.status })
    ∧ successPair (.success i message url) = some (i, url)
    ∧ successPair (.failure i message url) = none
    ∧ successPair (.timeout url) = none
    ∧ successPair (.abortedEvt url) = none
    ∧ successPair .complete = none :=
  ⟨foldl_trackerLog notifs s, rfl, rfl, rfl, rfl, rfl, rfl⟩

/-- C4 (failing input): starting from an idle worker, `push 0` schedules
a cycle, `stop()` cancels it but leaves the stale timer id in
`this.timeout`, so the subsequent `push 1` finds the `#enqueueWork`
guard false and schedules nothing: the queue is `[0, 1]` yet no cycle is
pending. -/
theorem worker_stop_then_push_schedules_nothing :
    (workerPush (workerStop (workerPush (initialWorker (T := Nat)) 0)) 1).buffer = [0, 1]
    ∧ (workerPush (workerStop (workerPush (initialWorker (T := Nat)) 0)) 1).timerLive = false
    ∧ (workerPush (workerStop (workerPush (initialWorker (T := Nat)) 0)) 1).timeoutSet = true := by
  decide

/-- C2 (counterexample): with no signer registered for the author, the
whole dispatch failure path runs to completion — every relay's status is
set to `Failure` — yet the unit's future result is left unresolved,
contradicting the claim that every failure path eventually resolves the
unit's future result. -/
theorem dispatch_no_signer_leaves_result_unresolved :
    dispatchThunk sampleThunk none false []
      = Except.ok
          { status := failRecord ["wss://a", "wss://b"] "No signer found for pk",
            resolved := none, trackerLog := [] }
    ∧ lookupUrl (failRecord ["wss://a", "wss://b"] "No signer found for pk") "wss://a"
        = some { message := "No signer found for pk", status := .Failure } := by
  constructor
  · rfl
  · rfl

/-- C7 (counterexample): aborting the aggregate returned by
`publishMany` immediately — before the member's dispatch runs — makes
the member's dispatch stop at the initial abort check: the endpoint
`wss://a` never receives any status, in particular it does not resolve
to `Aborted`, contradicting the claim. -/
theorem aggregate_abort_before_dispatch_no_aborted_status :
    ((abortMerged (mergeThunksModel [makeThunk 7 "pk" sampleRequestA])).thunks.map
        (fun t => dispatchThunk t none false []))
      = [Except.ok initPubState]
    ∧ lookupUrl initPubState.status "wss://a" = none := by
  constructor
  · rfl
  · rfl

/-- C2 (amended): every dispatch path returns normally — the signer
`try`/`catch` keeps any signer failure from crossing the public
boundary as an exception — and the signer-unavailable and signer-error
paths resolve every requested endpoint's status to `Failure` with the
explanatory message; but those paths leave the unit's future result
unresolved, which resolves only when the broadcaster emits `Complete`. -/
theorem dispatch_failure_paths (t : Thunk)
    (signer : Option (WEvent → Except String WEvent))
    (aad : Bool) (notifs : List PublishEvt) :
    (dispatchThunk t signer aad notifs).isOk = true
    ∧ (t.aborted = false → isSignedEvent t.event = false → signer = none →
        dispatchThunk t signer aad notifs
          = Except.ok
              { status := failRecord t.request.relays
                  ("No signer found for " ++ t.event.pubkey.getD ""),
                resolved := none, trackerLog := [] })
    ∧ (∀ sgn e, t.aborted = false → isSignedEvent t.event = false → signer = some sgn →
        sgn t.event = Except.error e →
        dispatchThunk t signer aad notifs
          = Except.ok
              { status := failRecord t.request.relays e,
                resolved := none, trackerLog := [] })
    ∧ (t.aborted = false → isSignedEvent t.event = true → aad = false →
        PublishEvt.complete ∈ notifs →
        dispatchThunk t signer aad notifs = Except.ok (sendPhase t aad notifs)
        ∧ ((sendPhase t aad notifs).resolved).isSome = true) := by
  refine ⟨?_, ?_, ?_, ?_⟩
  · cases ha : t.aborted <;> cases hs : isSignedEvent t.event <;>
      cases signer <;> simp [dispatchThunk, ha, hs, Except.isOk, Except.toBool]
    case false.false.some sgn =>
      cases hr : sgn t.event <;> simp [hr, Except.isOk, Except.toBool]
  · intro ha hs hsig
    subst hsig
    simp [dispatchThunk, ha, hs]
  · intro sgn e ha hs hsig hr
    subst hsig
    simp [dispatchThunk, ha, hs, hr]
  · intro ha hs haad hc
    refine ⟨by simp [dispatchThunk, ha, hs], ?_⟩
    simp only [sendPhase, haad, if_neg Bool.false_ne_true]
    exact complete_resolves notifs _ hc

/-- Witness for C2's amended theorem at the sample unsigned two-relay
thunk with no signer registered. -/
theorem dispatch_failure_paths_witness :
    (dispatchThunk sampleThunk none false []).isOk = true
    ∧ dispatchThunk sampleThunk none false []
        = Except.ok
            { status := failRecord sampleThunk.request.relays
                ("No signer found for " ++ sampleThunk.event.pubkey.getD ""),
              resolved := none, trackerLog := [] } :=
  ⟨(dispatch_failure_paths sampleThunk none false []).1,
   (dispatch_failure_paths sampleThunk none false []).2.1 rfl rfl rfl⟩

/-- C7 (amended): signaling the aggregate's cancellation token signals
every member's token; a member whose token is signalled before its
dispatch runs stops at the initial abort check, leaving every endpoint
status absent and the future unresolved — endpoints therefore do not
resolve `Aborted` on such an abort. -/
theorem aggregate_abort_propagation (ts : List Thunk) (t : Thunk)
    (hmem : t ∈ (abortMerged (mergeThunksModel ts)).thunks)
    (signer : Option (WEvent → Except String WEvent))
    (aad : Bool) (notifs : List PublishEvt) :
    t.aborted = true
    ∧ dispatchThunk t signer aad notifs = Except.ok initPubState := by
  have hab : t.aborted = true := by
    simp only [abortMerged, mergeThunksModel, List.mem_map] at hmem
    obtain ⟨t0, _, rfl⟩ := hmem
    rfl
  exact ⟨hab, by simp [dispatchThunk, hab]⟩

/-- Witness for C7's amended theorem: the single-member aggregate over
the sample request, aborted as a whole. -/
theorem aggregate_abort_propagation_witness :
    ({ sampleThunk with aborted := true } : Thunk).aborted = true
    ∧ dispatchThunk { sampleThunk with aborted := true } none false []
        = Except.ok initPubState :=
  aggregate_abort_propagation [sampleThunk] { sampleThunk with aborted := true }
    (by simp [abortMerged, mergeThunksModel]) none false []

theorem foldl_reg_lookup (v : ThunkLike) (l : List Thunk) :
    ∀ (reg : String → Option ThunkLike) (i : String),
      (l.foldl (fun r t => fun j => if j = eventId t.event then some v else r j) reg) i
        = if i ∈ l.map (fun t => eventId t.event) then some v else reg i := by
  induction l with
  | nil => intro reg i; simp
  | cons t l ih =>
      intro reg i
      rw [List.foldl_cons, ih]
      by_cases h1 : i ∈ l.map (fun t => eventId t.event)
      · simp [h1]
      · by_cases h2 : i = eventId t.event <;> simp [h1, h2]

/-- A second sample request whose event still needs hashing. -/
def sampleRequestB : ThunkRequest :=
  { event := { sampleEvent with content := "second", id := none },
    relays := ["wss://b"], delay := none, timeout := none }

/-- C6: `publishThunks` creates exactly one aggregate containing one
unit per request in request order, and the registry afterwards maps
every member event's identity to that same aggregate, so a lookup by
any member id returns the whole aggregate. -/
theorem publishThunks_registers_merged (now : Nat) (pk : String)
    (requests : List ThunkRequest) (reg : String → Option ThunkLike) (t : Thunk)
    (hmem : t ∈ (publishThunksModel now pk requests reg).1.thunks) :
    (publishThunksModel now pk requests reg).1.thunks = requests.map (makeThunk now pk)
    ∧ (publishThunksModel now pk requests reg).2 (eventId t.event)
        = some (.merged (publishThunksModel now pk requests reg).1) := by
  constructor
  · rfl
  · simp only [publishThunksModel, mergeThunksModel] at hmem ⊢
    rw [foldl_reg_lookup]
    have hm : eventId t.event ∈ (requests.map (makeThunk now pk)).map
        (fun x => eventId x.event) :=
      List.mem_map_of_mem _ hmem
    rw [if_pos hm]

/-- Witness for C6 at a concrete two-request batch, looking up the
first member's identity. -/
theorem publishThunks_registers_merged_witness :
    (publishThunksModel 5 "pk" [sampleRequestA, sampleRequestB] (fun _ => none)).1.thunks
      = [sampleRequestA, sampleRequestB].map (makeThunk 5 "pk")
    ∧ (publishThunksModel 5 "pk" [sampleRequestA, sampleRequestB] (fun _ => none)).2
        (eventId (makeThunk 5 "pk" sampleRequestA).event)
      = some (.merged
          (publishThunksModel 5 "pk" [sampleRequestA, sampleRequestB] (fun _ => none)).1) :=
  publishThunks_registers_merged 5 "pk" [sampleRequestA, sampleRequestB] (fun _ => none)
    (makeThunk 5 "pk" sampleRequestA) (by decide)

theorem alookup_mapset_eq [DecidableEq α] (k : α) (v : β) :
    ∀ m : List (α × β), m.any (fun q => decide (q.1 = k)) = true →
      alookup (m.map (fun q => if q.1 = k then (k, v) else q)) k = some v := by
  intro m
  induction m with
  | nil => intro h; cases h
  | cons p m ih =>
      intro h
      by_cases hpk : p.1 = k
      · rw [List.map_cons, if_pos hpk, alookup, List.find?_cons_of_pos _ (by simp)]
        rfl
      · have hm : m.any (fun q => decide (q.1 = k)) = true := by simpa [hpk] using h
        rw [List.map_cons, if_neg hpk, alookup,
          List.find?_cons_of_neg _ (by simpa using hpk)]
        exact ih hm

theorem alookup_mapset_ne [DecidableEq α] (k k2 : α) (v : β) (h : k2 ≠ k) :
    ∀ m : List (α × β),
      alookup (m.map (fun q => if q.1 = k then (k, v) else q)) k2 = alookup m k2 := by
  intro m
  induction m with
  | nil => rfl
  | cons p m ih =>
      by_cases hpk : p.1 = k
      · rw [List.map_cons, if_pos hpk, alookup,
          List.find?_cons_of_neg _ (by simp [Ne.symm h])]
        rw [alookup, List.find?_cons_of_neg _ (by simp [hpk, Ne.symm h])]
        exact ih
      · rw [List.map_cons, if_neg hpk]
        by_cases hp2 : p.1 = k2
        · rw [alookup, List.find?_cons_of_pos _ (by simp [hp2]), alookup,
            List.find?_cons_of_pos _ (by simp [hp2])]
        · rw [alookup, List.find?_cons_of_neg _ (by simpa using hp2), alookup,
            List.find?_cons_of_neg _ (by simpa using hp2)]
          exact ih

theorem alookup_upsert_eq [DecidableEq α] (k : α) (v : β) (m : List (α × β)) :
    alookup (upsert k v m) k = some v := by
  rw [upsert]
  split
  case isTrue h => exact alookup_mapset_eq k v m h
  case isFalse h =>
    rw [alookup, List.find?_append]
    have h1 : List.find? (fun p => decide (p.1 = k)) m = none := by
      rw [List.find?_eq_none]
      intro x hx
      simp only [decide_eq_true_eq]
      intro hxk
      exact h (by rw [List.any_eq_true]; exact ⟨x, hx, by simp [hxk]⟩)
    rw [h1]
    simp

theorem alookup_upsert_ne [DecidableEq α] (k k2 : α) (v : β) (m : List (α × β))
    (h : k2 ≠ k) : alookup (upsert k v m) k2 = alookup m k2 := by
  rw [upsert]
  split
  case isTrue _ => exact alookup_mapset_ne k k2 v h m
  case isFalse _ =>
    rw [alookup, List.find?_append]
    have h1 : List.find? (fun p => decide (p.1 = k2)) [(k, v)] = none := by
      simp [Ne.symm h]
    rw [h1]
    simp [alookup]

theorem doWorkAux_processed_length [DecidableEq K] (cfg : WorkerCfg T K H) :
    ∀ (n : Nat) (buf processed : List T) (log : List (H × T)),
      (doWorkAux cfg n buf processed log).processed.length ≤ processed.length + n := by
  intro n
  induction n with
  | zero => intro buf processed log; simp [doWorkAux]
  | succ i ih =>
      intro buf processed log
      cases buf with
      | nil => simp [doWorkAux]
      | cons m rest =>
          rw [doWorkAux]
          by_cases hd : deferPred cfg m
          · rw [if_pos hd]
            exact (ih _ _ _).trans (by omega)
          · rw [if_neg hd]
            have := ih rest (processed ++ [m]) (log ++ handleMessage cfg m)
            simp only [List.length_append, List.length_cons, List.length_nil] at this ⊢
            omega

theorem doWorkAux_processed_defer_false [DecidableEq K] (cfg : WorkerCfg T K H) :
    ∀ (n : Nat) (buf processed : List T) (log : List (H × T)) (x : T),
      x ∈ (doWorkAux cfg n buf processed log).processed →
      x ∈ processed ∨ deferPred cfg x = false := by
  intro n
  induction n with
  | zero => intro buf processed log x hx; exact Or.inl hx
  | succ i ih =>
      intro buf processed log x hx
      cases buf with
      | nil => exact Or.inl hx
      | cons m rest =>
          rw [doWorkAux] at hx
          by_cases hd : deferPred cfg m
          · rw [if_pos hd] at hx
            exact ih _ _ _ x hx
          · rw [if_neg hd] at hx
            rcases ih _ _ _ x hx with h1 | h2
            · rcases List.mem_append.mp h1 with h3 | h4
              · exact Or.inl h3
              · right
                have hxm : x = m := by simpa using h4
                subst hxm
                simpa using hd
            · exact Or.inr h2

theorem doWorkAux_count [DecidableEq T] [DecidableEq K] (cfg : WorkerCfg T K H) :
    ∀ (n : Nat) (buf processed : List T) (log : List (H × T)) (x : T),
      (doWorkAux cfg n buf processed log).buffer.count x
          + (doWorkAux cfg n buf processed log).processed.count x
        = buf.count x + processed.count x := by
  intro n
  induction n with
  | zero => intro buf processed log x; simp [doWorkAux]
  | succ i ih =>
      intro buf processed log x
      cases buf with
      | nil => simp [doWorkAux]
      | cons m rest =>
          rw [doWorkAux]
          by_cases hd : deferPred cfg m
          · rw [if_pos hd]
            have := ih (rest ++ [m]) processed log x
            simp only [List.count_append, List.count_cons, List.count_nil] at this ⊢
            omega
          · rw [if_neg hd]
            have := ih rest (processed ++ [m]) (log ++ handleMessage cfg m) x
            simp only [List.count_append, List.count_cons, List.count_nil] at this ⊢
            omega

theorem doWorkAux_processed_mono [DecidableEq K] (cfg : WorkerCfg T K H) :
    ∀ (n : Nat) (buf processed : List T) (log : List (H × T)) (x : T),
      x ∈ processed → x ∈ (doWorkAux cfg n buf processed log).processed := by
  intro n
  induction n with
  | zero => intro buf processed log x hx; exact hx
  | succ i ih =>
      intro buf processed log x hx
      cases buf with
      | nil => exact hx
      | cons m rest =>
          rw [doWorkAux]
          by_cases hd : deferPred cfg m
          · rw [if_pos hd]; exact ih _ _ _ x hx
          · rw [if_neg hd]
            exact ih _ _ _ x (List.mem_append.mpr (Or.inl hx))

theorem handleMessage_snd [DecidableEq K] (cfg : WorkerCfg T K H) (m : T)
    (pr : H × T) (h : pr ∈ handleMessage cfg m) : pr.2 = m := by
  rcases List.mem_append.mp h with h1 | h2
  · rcases List.mem_map.mp h1 with ⟨a, _, rfl⟩
    rfl
  · cases hk : cfg.getKey with
    | none => rw [hk] at h2; cases h2
    | some f =>
        rw [hk] at h2
        rcases List.mem_map.mp h2 with ⟨a, _, rfl⟩
        rfl

theorem doWorkAux_log [DecidableEq K] (cfg : WorkerCfg T K H) :
    ∀ (n : Nat) (buf processed : List T) (log : List (H × T)) (pr : H × T),
      pr ∈ (doWorkAux cfg n buf processed log).log →
      pr ∈ log ∨ pr.2 ∈ (doWorkAux cfg n buf processed log).processed := by
  intro n
  induction n with
  | zero => intro buf processed log pr hx; exact Or.inl hx
  | succ i ih =>
      intro buf processed log pr hx
      cases buf with
      | nil => exact Or.inl hx
      | cons m rest =>
          rw [doWorkAux] at hx ⊢
          by_cases hd : deferPred cfg m
          · rw [if_pos hd] at hx ⊢
            exact ih _ _ _ pr hx
          · rw [if_neg hd] at hx ⊢
            rcases ih _ _ _ pr hx with h1 | h2
            · rcases List.mem_append.mp h1 with h3 | h4
              · exact Or.inl h3
              · right
                have := handleMessage_snd cfg m pr h4
                rw [this]
                exact doWorkAux_processed_mono cfg _ _ _ _ m
                  (List.mem_append.mpr (Or.inr (by simp)))
            · exact Or.inr h2

/-- C3: a `#doWork` cycle handles at most the fixed cap of 50 items,
and an item for which the deferral predicate holds is moved to the tail
without being handled: it is absent from the cycle's processed items and
handler log, and still present in the buffer immediately after the
cycle — so it cannot be processed before a later cycle. -/
theorem worker_cycle_cap_and_deferral [DecidableEq T] [DecidableEq K]
    (cfg : WorkerCfg T K H) (p : T → Bool) (buf : List T) (m : T)
    (hp : cfg.shouldDefer = some p) (hm : p m = true) (hmem : m ∈ buf) :
    (doWork cfg buf).processed.length ≤ 50
    ∧ m ∉ (doWork cfg buf).processed
    ∧ m ∈ (doWork cfg buf).buffer
    ∧ ∀ h : H, (h, m) ∉ (doWork cfg buf).log := by
  have hdm : deferPred cfg m = true := by simp [deferPred, hp, hm]
  have hnp : m ∉ (doWork cfg buf).processed := by
    intro hmp
    rcases doWorkAux_processed_defer_false cfg 50 buf [] [] m hmp with h1 | h2
    · cases h1
    · rw [hdm] at h2; cases h2
  refine ⟨?_, hnp, ?_, ?_⟩
  · simpa using doWorkAux_processed_length cfg 50 buf [] []
  · have hc := doWorkAux_count cfg 50 buf [] [] m
    have h0 : (doWork cfg buf).processed.count m = 0 := List.count_eq_zero.mpr hnp
    have h1 : 0 < buf.count m := List.count_pos_iff.mpr hmem
    have h2 : 0 < (doWork cfg buf).buffer.count m := by
      have : (doWork cfg buf).buffer.count m + (doWork cfg buf).processed.count m
          = buf.count m + List.count m [] := hc
      simp only [List.count_nil] at this
      omega
    exact List.count_pos_iff.mp h2
  · intro h hcontra
    rcases doWorkAux_log cfg 50 buf [] [] (h, m) hcontra with h1 | h2
    · cases h1
    · exact hnp h2

/-- The sample worker configuration for C3's witness: defer exactly the
item `3`. -/
def cfgW : WorkerCfg Nat Nat Nat :=
  { getKey := none, shouldDefer := some (fun n => decide (n = 3)), handlers := [] }

/-- Witness for C3 at a two-item buffer whose head is deferred. -/
theorem worker_cycle_cap_and_deferral_witness :
    (doWork cfgW [3, 1]).processed.length ≤ 50
    ∧ 3 ∉ (doWork cfgW [3, 1]).processed
    ∧ 3 ∈ (doWork cfgW [3, 1]).buffer
    ∧ (5, 3) ∉ (doWork cfgW [3, 1]).log :=
  ⟨(worker_cycle_cap_and_deferral cfgW _ [3, 1] 3 rfl (by decide) (by simp)).1,
   (worker_cycle_cap_and_deferral cfgW _ [3, 1] 3 rfl (by decide) (by simp)).2.1,
   (worker_cycle_cap_and_deferral cfgW _ [3, 1] 3 rfl (by decide) (by simp)).2.2.1,
   (worker_cycle_cap_and_deferral cfgW _ [3, 1] 3 rfl (by decide) (by simp)).2.2.2 5⟩

theorem doWorkAux_log_no_defer [DecidableEq K] (cfg : WorkerCfg T K H) :
    ∀ (n : Nat) (buf : List T), (∀ x ∈ buf, deferPred cfg x = false) →
      ∀ (processed : List T) (log : List (H × T)),
        (doWorkAux cfg n buf processed log).log
          = log ++ (buf.take n).flatMap (handleMessage cfg) := by
  intro n
  induction n with
  | zero => intro buf hd processed log; simp [doWorkAux]
  | succ i ih =>
      intro buf hd processed log
      cases buf with
      | nil => simp [doWorkAux]
      | cons m rest =>
          rw [doWorkAux, if_neg (by simp [hd m (by simp)])]
          rw [ih rest (fun x hx => hd x (List.mem_cons_of_mem m hx))]
          simp [List.append_assoc]

theorem getHandlers_addHandler_self [DecidableEq K]
    (hs : List (HKey K × List H)) (k : HKey K) (h : H) :
    getHandlers (addHandler hs k h) k = getHandlers hs k ++ [h] := by
  rw [addHandler, setHandlers, getHandlers, alookup_upsert_eq]
  rfl

/-- C9: during a cycle, each non-deferred item — here, every item of a
buffer on which the deferral predicate never holds — contributes to the
invocation log, in order, exactly its global handlers in registration
order followed (when a key-extraction function is configured) by the
handlers under its routing key in registration order; `addHandler`
appends to the key's registration list. -/
theorem worker_dispatch_order [DecidableEq K] (cfg : WorkerCfg T K H)
    (buf : List T) (hnd : ∀ x ∈ buf, deferPred cfg x = false) :
    (doWork cfg buf).log = (buf.take 50).flatMap (handleMessage cfg)
    ∧ (∀ m : T, handleMessage cfg m
        = (getHandlers cfg.handlers .anyKey).map (fun h => (h, m))
          ++ (match cfg.getKey with
              | some f => (getHandlers cfg.handlers (.key (f m))).map (fun h => (h, m))
              | none => []))
    ∧ ∀ (hs : List (HKey K × List H)) (k : HKey K) (hh : H),
        getHandlers (addHandler hs k hh) k = getHandlers hs k ++ [hh] := by
  refine ⟨?_, fun m => rfl, fun hs k hh => getHandlers_addHandler_self hs k hh⟩
  rw [doWork, doWorkAux_log_no_defer cfg 50 buf hnd [] []]
  rfl

/-- The sample worker configuration for C9's witness: identity routing
key, one global handler `10`, one handler `20` under key `0`. -/
def cfgD : WorkerCfg Nat Nat Nat :=
  { getKey := some (fun n => n), shouldDefer := none,
    handlers := addHandler (addHandler ([] : List (HKey Nat × List Nat)) .anyKey 10)
      (.key 0) 20 }

/-- Witness for C9 at a concrete two-item buffer. -/
theorem worker_dispatch_order_witness :
    (doWork cfgD [0, 1]).log = ([0, 1].take 50).flatMap (handleMessage cfgD) :=
  (worker_dispatch_order cfgD [0, 1] (fun _ _ => rfl)).1

theorem findSome?_eq_find?_bind (g : α → Option β) :
    ∀ l : List α, l.findSome? g = (l.find? (fun a => (g a).isSome)).bind g := by
  intro l
  induction l with
  | nil => rfl
  | cons a l ih =>
      cases hg : g a with
      | some b =>
          rw [List.findSome?_cons_of_isSome _ (by simp [hg]),
            List.find?_cons_of_pos _ (by simp [hg])]
          simp [hg]
      | none =>
          rw [List.findSome?_cons_of_isNone _ (by simp [hg]),
            List.find?_cons_of_neg _ (by simp [hg])]
          exact ih

theorem findBySeverity_isSome (url : String) (sev : PublishStatus) :
    ∀ statuses : List ThunkStatusByUrl,
      (findBySeverity (statuses.map (fun s => lookupUrl s url)) sev).isSome
        = statuses.any (fun s => (lookupUrl s url).any (fun ts => decide (ts.status = sev))) := by
  intro statuses
  induction statuses with
  | nil => rfl
  | cons s l ih =>
      simp only [List.map_cons, findBySeverity, List.any_cons]
      cases h : lookupUrl s url with
      | none =>
          rw [List.findSome?_cons_of_isNone _ (by simp [h])]
          simp only [h, Option.any_none, Bool.false_or]
          simpa [findBySeverity] using ih
      | some ts =>
          by_cases hs : ts.status = sev
          · rw [List.findSome?_cons_of_isSome _ (by simp [h, hs])]
            simp [h, hs]
          · rw [List.findSome?_cons_of_isNone _ (by simp [h, hs])]
            simp only [h, Option.any_some, hs, decide_False, Bool.false_or]
            simpa [findBySeverity] using ih

theorem mergeUrl_eq_spec (statuses : List ThunkStatusByUrl) (url : String) :
    mergeUrlStatus (statuses.map (fun s => lookupUrl s url)) = specSelect statuses url := by
  rw [mergeUrlStatus, findSome?_eq_find?_bind]
  have h1 : (fun sev => (findBySeverity (statuses.map (fun s => lookupUrl s url)) sev).isSome)
      = fun sev => statuses.any
          (fun s => (lookupUrl s url).any (fun ts => decide (ts.status = sev))) :=
    funext (fun sev => findBySeverity_isSome url sev statuses)
  rw [h1, specSelect]
  cases hf : severityList.find?
      (fun sev => statuses.any
        (fun s => (lookupUrl s url).any (fun ts => decide (ts.status = sev)))) with
  | none => rfl
  | some sev =>
      simp only [Option.some_bind]
      rw [findBySeverity, List.findSome?_map]
      rfl

theorem lookup_mergeStatuses (statuses : List ThunkStatusByUrl) :
    ∀ ks : List String, ks.Nodup → ∀ url : String,
      lookupUrl (ks.filterMap (fun u =>
          (mergeUrlStatus (statuses.map (fun s => lookupUrl s u))).map
            (fun ts => (u, ts)))) url
        = if url ∈ ks then mergeUrlStatus (statuses.map (fun s => lookupUrl s url))
          else none := by
  intro ks
  induction ks with
  | nil => intro _ url; simp [lookupUrl, alookup]
  | cons k ks ih =>
      intro hnd url
      rcases List.nodup_cons.mp hnd with ⟨hk, hnd2⟩
      rw [List.filterMap_cons]
      cases hf : mergeUrlStatus (statuses.map (fun s => lookupUrl s k)) with
      | none =>
          simp only [hf, Option.map_none']
          rw [ih hnd2 url]
          by_cases hu : url = k
          · subst hu
            rw [if_neg hk, if_pos (List.mem_cons_self url ks), hf]
          · by_cases hu2 : url ∈ ks
            · rw [if_pos hu2, if_pos (List.mem_cons_of_mem k hu2)]
            · rw [if_neg hu2, if_neg (by simp [hu, hu2])]
      | some ts =>
          simp only [hf, Option.map_some']
          by_cases hu : url = k
          · subst hu
            rw [lookupUrl, alookup, List.find?_cons_of_pos _ (by simp),
              if_pos (List.mem_cons_self url ks), hf]
            rfl
          · rw [lookupUrl, alookup, List.find?_cons_of_neg _ (by simpa using Ne.symm hu)]
            have h2 := ih hnd2 url
            rw [lookupUrl, alookup] at h2
            rw [h2]
            by_cases hu2 : url ∈ ks
            · rw [if_pos hu2, if_pos (List.mem_cons_of_mem k hu2)]
            · rw [if_neg hu2, if_neg (by simp [hu, hu2])]

theorem mem_uniqAux : ∀ (xs seen : List String) (x : String),
    x ∈ uniqAux seen xs ↔ x ∈ xs ∧ x ∉ seen := by
  intro xs
  induction xs with
  | nil => intro seen x; simp [uniqAux]
  | cons y ys ih =>
      intro seen x
      rw [uniqAux]
      by_cases hy : seen.contains y
      · rw [if_pos hy, ih]
        constructor
        · rintro ⟨h1, h2⟩
          exact ⟨List.mem_cons_of_mem y h1, h2⟩
        · rintro ⟨h1, h2⟩
          rcases List.mem_cons.mp h1 with h3 | h3
          · subst h3
            exact absurd (List.elem_iff.mp hy) h2
          · exact ⟨h3, h2⟩
      · rw [if_neg hy]
        constructor
        · intro h1
          rcases List.mem_cons.mp h1 with h3 | h3
          · subst h3
            exact ⟨List.mem_cons_self x ys, fun hc => hy (List.elem_iff.mpr hc)⟩
          · rcases (ih (y :: seen) x).mp h3 with ⟨h4, h5⟩
            exact ⟨List.mem_cons_of_mem y h4,
              fun hc => h5 (List.mem_cons_of_mem y hc)⟩
        · rintro ⟨h1, h2⟩
          rcases List.mem_cons.mp h1 with h3 | h3
          · subst h3
            exact List.mem_cons_self x _
          · by_cases hxy : x = y
            · subst hxy
              exact List.mem_cons_self x _
            · refine List.mem_cons_of_mem y ((ih (y :: seen) x).mpr ⟨h3, ?_⟩)
              intro hc
              rcases List.mem_cons.mp hc with h4 | h4
              · exact hxy h4
              · exact h2 h4

theorem nodup_uniqAux : ∀ (xs seen : List String), (uniqAux seen xs).Nodup := by
  intro xs
  induction xs with
  | nil => intro seen; exact List.nodup_nil
  | cons y ys ih =>
      intro seen
      rw [uniqAux]
      by_cases hy : seen.contains y
      · rw [if_pos hy]; exact ih seen
      · rw [if_neg hy]
        refine List.nodup_cons.mpr ⟨?_, ih (y :: seen)⟩
        intro hmem
        rcases (mem_uniqAux ys (y :: seen) y).mp hmem with ⟨_, h2⟩
        exact h2 (List.mem_cons_self y seen)

theorem lookupUrl_eq_none_of_not_mem_keys (s : ThunkStatusByUrl) (url : String)
    (h : url ∉ s.map Prod.fst) : lookupUrl s url = none := by
  rw [lookupUrl, alookup, List.find?_eq_none.mpr, Option.map_none']
  intro p hp
  simp only [decide_eq_true_eq]
  intro he
  exact h (he ▸ List.mem_map_of_mem Prod.fst hp)

theorem mergeUrlStatus_none (statuses : List ThunkStatusByUrl) (url : String)
    (h : ∀ s ∈ statuses, lookupUrl s url = none) :
    mergeUrlStatus (statuses.map (fun s => lookupUrl s url)) = none := by
  rw [mergeUrlStatus, List.findSome?_eq_none_iff]
  intro sev _
  rw [findBySeverity, List.findSome?_map, List.findSome?_eq_none_iff]
  intro s hs
  simp [Function.comp, h s hs]

/-- C1: for every aggregate status list and every endpoint identifier,
the merged status view equals the spec's severity scan — at the first
severity level, in the fixed order Aborted, Failure, Timeout, Pending,
Success, at which any member has a status for the endpoint, the first
such member's status is taken — and in particular {Success, Pending}
merges to Pending, {Success, Aborted} merges to Aborted, and
{Failure, Timeout} merges to Failure. -/
theorem merged_status_severity_scan :
    (∀ (statuses : List ThunkStatusByUrl) (url : String),
        lookupUrl (mergeStatuses statuses) url = specSelect statuses url)
    ∧ lookupUrl (mergeStatuses [[("r", { message := "ok", status := .Success })],
          [("r", { message := "wait", status := .Pending })]]) "r"
        = some { message := "wait", status := .Pending }
    ∧ lookupUrl (mergeStatuses [[("r", { message := "ok", status := .Success })],
          [("r", { message := "gone", status := .Aborted })]]) "r"
        = some { message := "gone", status := .Aborted }
    ∧ lookupUrl (mergeStatuses [[("r", { message := "no", status := .Failure })],
          [("r", { message := "late", status := .Timeout })]]) "r"
        = some { message := "no", status := .Failure } := by
  refine ⟨?_, by decide, by decide, by decide⟩
  intro statuses url
  rw [mergeStatuses, uniqStrings,
    lookup_mergeStatuses statuses _ (nodup_uniqAux _ []) url]
  by_cases hmem : url ∈ uniqAux [] (statuses.flatMap (fun s => s.map Prod.fst))
  · rw [if_pos hmem, mergeUrl_eq_spec]
  · rw [if_neg hmem, ← mergeUrl_eq_spec, mergeUrlStatus_none]
    intro s hs
    apply lookupUrl_eq_none_of_not_mem_keys
    intro hkey
    exact hmem ((mem_uniqAux _ [] url).mpr
      ⟨List.mem_flatMap.mpr ⟨s, hs, hkey⟩, by simp⟩)

/-! ## Per-endpoint status monotonicity (C8) -/

/-- The endpoint a lifecycle notification names, if any. -/
def urlOfEvt : PublishEvt → Option String
  | .success _ _ u => some u
  | .failure _ _ u => some u
  | .timeout u => some u
  | .abortedEvt u => some u
  | .complete => none

/-- Modelled from the spec: the broadcaster emits, per endpoint, at most
one lifecycle notification, and only for requested endpoints
(`MultiPublish` lives in `@welshman/net`, a repository package not under
`src/`). -/
def validNotifs (relays : List String) (notifs : List PublishEvt) : Prop :=
  (∀ u : String, (notifs.filterMap urlOfEvt).count u ≤ 1)
  ∧ ∀ u ∈ notifs.filterMap urlOfEvt, u ∈ relays

/-- The observable states along a notification sequence, starting from
`s` (one entry per prefix). -/
def pubStates (s : PubState) : List PublishEvt → List PubState
  | [] => [s]
  | n :: ns => s :: pubStates (applyPublishEvt s n) ns

def statusOf (o : Option ThunkStatus) : Option PublishStatus :=
  o.map (fun ts => ts.status)

/-- One admissible step of an endpoint's observed status: unchanged, or
from `Pending` to a terminal (non-`Pending`) kind. -/
def monoStep (a b : Option ThunkStatus) : Prop :=
  b = a ∨ (statusOf a = some .Pending ∧ ∃ ts, b = some ts ∧ ts.status ≠ .Pending)

theorem lookup_foldl_assocSet (v : ThunkStatus) :
    ∀ (relays : List String) (m0 : ThunkStatusByUrl) (url : String),
      lookupUrl (relays.foldl (fun m u => assocSet u v m) m0) url
        = if url ∈ relays then some v else lookupUrl m0 url := by
  intro relays
  induction relays with
  | nil => intro m0 url; simp
  | cons r rs ih =>
      intro m0 url
      rw [List.foldl_cons, ih]
      by_cases hu : url ∈ rs
      · simp [hu]
      · by_cases hur : url = r
        · subst hur
          simp only [hu, if_false, List.mem_cons, true_or, if_true]
          exact alookup_upsert_eq url v m0
        · simp only [hu, if_false, List.mem_cons, hur, false_or]
          exact alookup_upsert_ne r url v m0 hur

theorem applyPublishEvt_status_ne (s : PubState) (n : PublishEvt) (url : String)
    (h : urlOfEvt n ≠ some url) :
    lookupUrl (applyPublishEvt s n).status url = lookupUrl s.status url := by
  cases n with
  | success i msg u =>
      exact alookup_upsert_ne u url _ s.status
        (fun he => h (by rw [urlOfEvt, he]))
  | failure i msg u =>
      exact alookup_upsert_ne u url _ s.status
        (fun he => h (by rw [urlOfEvt, he]))
  | timeout u =>
      exact alookup_upsert_ne u url _ s.status
        (fun he => h (by rw [urlOfEvt, he]))
  | abortedEvt u =>
      exact alookup_upsert_ne u url _ s.status
        (fun he => h (by rw [urlOfEvt, he]))
  | complete => rfl

theorem applyPublishEvt_status_touch (s : PubState) (n : PublishEvt) (url : String)
    (h : urlOfEvt n = some url) :
    ∃ ts : ThunkStatus, lookupUrl (applyPublishEvt s n).status url = some ts
      ∧ ts.status ≠ .Pending := by
  cases n with
  | success i msg u =>
      have hu : u = url := by simpa [urlOfEvt] using h
      subst hu
      exact ⟨_, alookup_upsert_eq u _ s.status, by simp⟩
  | failure i msg u =>
      have hu : u = url := by simpa [urlOfEvt] using h
      subst hu
      exact ⟨_, alookup_upsert_eq u _ s.status, by simp⟩
  | timeout u =>
      have hu : u = url := by simpa [urlOfEvt] using h
      subst hu
      exact ⟨_, alookup_upsert_eq u _ s.status, by simp⟩
  | abortedEvt u =>
      have hu : u = url := by simpa [urlOfEvt] using h
      subst hu
      exact ⟨_, alookup_upsert_eq u _ s.status, by simp⟩
  | complete => exact absurd h (by simp [urlOfEvt])

theorem pubStates_head (s : PubState) (ns : List PublishEvt) :
    ∃ tl, pubStates s ns = s :: tl := by
  cases ns <;> exact ⟨_, rfl⟩

theorem pubStates_chain (url : String) :
    ∀ (notifs : List PublishEvt) (s : PubState),
      (notifs.filterMap urlOfEvt).count url ≤ 1 →
      (statusOf (lookupUrl s.status url) = some .Pending
        ∨ ∀ n ∈ notifs, urlOfEvt n ≠ some url) →
      List.Chain' monoStep
        ((pubStates s notifs).map (fun st => lookupUrl st.status url)) := by
  intro notifs
  induction notifs with
  | nil =>
      intro s _ _
      simp [pubStates]
  | cons n ns ih =>
      intro s hc hd
      rw [pubStates, List.map_cons]
      obtain ⟨tl, htl⟩ := pubStates_head (applyPublishEvt s n) ns
      apply List.chain'_cons'.mpr
      constructor
      · intro b hb
        rw [htl, List.map_cons, List.head?_cons, Option.mem_def,
          Option.some_inj] at hb
        subst hb
        by_cases hn : urlOfEvt n = some url
        · have hpend : statusOf (lookupUrl s.status url) = some .Pending := by
            rcases hd with h1 | h2
            · exact h1
            · exact absurd hn (h2 n (List.mem_cons_self n ns))
          obtain ⟨ts, hts, hterm⟩ := applyPublishEvt_status_touch s n url hn
          exact Or.inr ⟨hpend, ts, hts, hterm⟩
        · exact Or.inl (applyPublishEvt_status_ne s n url hn)
      · apply ih
        · cases hfc : urlOfEvt n with
          | none => simpa only [List.filterMap_cons, hfc] using hc
          | some u =>
              simp only [List.filterMap_cons, hfc, List.count_cons] at hc
              omega
        · by_cases hn : urlOfEvt n = some url
          · right
            intro n2 hn2 he2
            simp only [List.filterMap_cons, hn, List.count_cons, beq_self_eq_true,
              if_true] at hc
            have hmem2 : url ∈ ns.filterMap urlOfEvt :=
              List.mem_filterMap.mpr ⟨n2, hn2, he2⟩
            rw [← List.count_pos_iff] at hmem2
            omega
          · rcases hd with h1 | h2
            · left
              rw [applyPublishEvt_status_ne s n url hn]
              exact h1
            · right
              exact fun n2 hn2 => h2 n2 (List.mem_cons_of_mem n hn2)

/-- C8: from the moment the Pending record is set, along any broadcaster
notification sequence obeying the modelled discipline (at most one
lifecycle notification per endpoint, only for requested endpoints), an
endpoint's observed status starts at `Pending` for requested endpoints
(absent otherwise) and every step either leaves it unchanged or moves it
from `Pending` to one terminal kind — there is no transition out of a
terminal kind. -/
theorem status_monotonic_per_endpoint (relays : List String) (notifs : List PublishEvt)
    (url : String) (hv : validNotifs relays notifs) :
    ((pubStates (startState relays) notifs).map
        (fun st => lookupUrl st.status url)).head?
      = some (if url ∈ relays
          then some { message := "Sending your message...", status := .Pending }
          else none)
    ∧ List.Chain' monoStep
        ((pubStates (startState relays) notifs).map
          (fun st => lookupUrl st.status url)) := by
  have hstart : lookupUrl (startState relays).status url
      = if url ∈ relays
        then some { message := "Sending your message...", status := .Pending }
        else none := by
    have := lookup_foldl_assocSet
      { message := "Sending your message...", status := .Pending } relays [] url
    rw [startState, pendingRecord]
    rw [this]
    rfl
  obtain ⟨tl, htl⟩ := pubStates_head (startState relays) notifs
  constructor
  · rw [htl, List.map_cons, List.head?_cons, hstart]
  · apply pubStates_chain
    · exact hv.1 url
    · by_cases hmem : url ∈ relays
      · left
        rw [hstart, if_pos hmem]
        rfl
      · right
        intro n hn he
        exact hmem (hv.2 url (List.mem_filterMap.mpr ⟨n, hn, he⟩))

/-- Witness for C8 at one relay receiving a `Success` then `Complete`. -/
theorem status_monotonic_per_endpoint_witness :
    ((pubStates (startState ["wss://a"])
        [.success "id1" "ok" "wss://a", .complete]).map
          (fun st => lookupUrl st.status "wss://a")).head?
      = some (if "wss://a" ∈ ["wss://a"]
          then some { message := "Sending your message...", status := .Pending }
          else none)
    ∧ List.Chain' monoStep
        ((pubStates (startState ["wss://a"])
          [.success "id1" "ok" "wss://a", .complete]).map
            (fun st => lookupUrl st.status "wss://a")) :=
  status_monotonic_per_endpoint ["wss://a"]
    [.success "id1" "ok" "wss://a", .complete] "wss://a"
    ⟨fun u => le_trans (List.count_le_length _ _) (by decide), by decide⟩

end Welshman
